import Mathlib

/-!
Shallow embedding of `calc.py` (spoqa-pycon-2016-obfuscation-contest).

Numbers are modelled exactly by `ℚ` (the spec treats coefficients and the
evaluation point as real numbers with exact arithmetic); the finite
evaluation loop is additionally stated generically over any commutative
ring so that it can be instantiated at `ℝ`.

Python exceptions observable by a caller of `calc_power_series` / `fit`
are modelled by an explicit error type.  An infinite (length-less)
coefficient source is a one-shot cursor: the program reads positions
`0, 1, 2, ...` in order; the embedding records the list of positions
actually pulled, so that frame properties about consumption of the
source can be stated.
-/

namespace CalcPy

/-- Uncaught Python exceptions that `calc.py` can surface to its caller:
`IndexError` from `coeffs[0]` on an empty list (line 61), `StopIteration`
from `next(coeffs)` on an exhausted generator (lines 46 and 78),
`ZeroDivisionError` from the divisions in `fit` and in the ratio/radius
computations (lines 52, 55, 111-114), `ValueError` for the out-of-radius
rejection (line 57), and `UnboundLocalError` from reading `result` at
line 106 after the timeout handler deleted `infinite` (line 85). -/
inductive PyError where
  | indexError
  | stopIteration
  | zeroDivisionError
  | valueError
  | unboundLocalError
  deriving DecidableEq

/-- Outcome of a Python call: a returned value or an uncaught exception. -/
inductive PyResult (α : Type) where
  | ok (v : α)
  | error (e : PyError)
  deriving DecidableEq

/-- The closure `lambda x: a + b*x` returned by `fit` (calc.py line 116). -/
structure Line where
  a : ℚ
  b : ℚ
  deriving DecidableEq

/-- Evaluation of a fitted line at a point. -/
def Line.eval (l : Line) (x : ℚ) : ℚ := l.a + l.b * x

/-- `fit` (calc.py lines 109-116): simple linear regression.  Python raises
a raw `ZeroDivisionError` when `len(X) == 0` or `len(Y) == 0` (the means,
lines 111-112) or when `sum((x-mean_x)**2 for x in X) == 0` (the slope
denominator, line 114); there is no catching or conversion. -/
def fit (X Y : List ℚ) : PyResult Line :=
  if X.length = 0 then .error .zeroDivisionError
  else if Y.length = 0 then .error .zeroDivisionError
  else
    let mean_x : ℚ := X.sum / (X.length : ℚ)
    let mean_y : ℚ := Y.sum / (Y.length : ℚ)
    let den : ℚ := (X.map (fun u => (u - mean_x) ^ 2)).sum
    if den = 0 then .error .zeroDivisionError
    else
      let b : ℚ := ((X.zip Y).map (fun p => (p.1 - mean_x) * (p.2 - mean_y))).sum / den
      .ok ⟨mean_y - b * mean_x, b⟩

/-- Accumulation loop of the finite path (calc.py lines 62-63):
`for i, c in enumerate(coeffs[1:]): finite += c * x ** (i+1)`.
The argument `i` is the exponent of the next term. -/
def finiteAux {α : Type} [CommRing α] (x : α) : List α → ℕ → α → α
  | [], _, acc => acc
  | c :: cs, i, acc => finiteAux x cs (i + 1) (acc + c * x ^ i)

/-- Finite path of `calc_power_series` (calc.py lines 59-64):
`finite = coeffs[0]`, then the accumulation over `coeffs[1:]`. -/
def finiteEval {α : Type} [CommRing α] (c0 : α) (rest : List α) (x : α) : α :=
  finiteAux x rest 1 c0

/-- `radius_estimation = 10` (calc.py line 44): how many leading
coefficients are pulled from an infinite source for radius estimation. -/
def radius_estimation : ℕ := 10

/-- `threshold = 1000` (calc.py line 67): the iteration cap; the loop
raises once the total term index `i` exceeds it. -/
def threshold : ℕ := 1000

/-- `err = 0.0000001` (calc.py line 68): the convergence threshold for the
difference of consecutive partial sums. -/
def err : ℚ := 1 / 10000000

/-- `next(coeffs)` repeated `n` times starting at cursor position `s`
(calc.py lines 45-46).  Returns the pulled values (or `StopIteration` if
the source is exhausted first) together with the positions pulled. -/
def pullRangeT (f : ℕ → Option ℚ) : ℕ → ℕ → PyResult (List ℚ) × List ℕ
  | _, 0 => (.ok [], [])
  | s, n + 1 =>
    match f s with
    | none => (.error .stopIteration, [])
    | some c =>
      let p := pullRangeT f (s + 1) n
      (match p.1 with
       | .ok l => .ok (c :: l)
       | .error e => .error e, s :: p.2)

/-- The `Y` list of calc.py lines 49-52: consecutive ratios
`coeffs_cache[n] / coeffs_cache[n-1]` for `n = 1 .. len-1`, walking the
cache left to right; Python raises `ZeroDivisionError` at the first zero
divisor, so the check on the earlier element precedes the recursion. -/
def buildY : List ℚ → PyResult (List ℚ)
  | [] => .ok []
  | [_] => .ok []
  | a :: b :: rest =>
    if a = 0 then .error .zeroDivisionError
    else
      match buildY (b :: rest) with
      | .ok ys => .ok (b / a :: ys)
      | .error e => .error e

/-- The `X` list of calc.py lines 48-51: `1/(n+1)` for `n = 1 .. len-1`. -/
def buildX (len : ℕ) : List ℚ :=
  (List.range' 1 (len - 1)).map fun n => 1 / ((n : ℚ) + 1)

/-- Radius-of-convergence estimation (calc.py lines 48-55): build the
Domb-Sykes sample lists `X`, `Y` from the cached coefficients, fit a line,
and return `r = 1 / line(0)`; `ZeroDivisionError` propagates from the
ratios, from `fit`, or from a zero intercept. -/
def estimateRadius (cache : List ℚ) : PyResult ℚ :=
  match buildY cache with
  | .error e => .error e
  | .ok Y =>
    match fit (buildX cache.length) Y with
    | .error e => .error e
    | .ok line =>
      if line.eval 0 = 0 then .error .zeroDivisionError
      else .ok (1 / line.eval 0)

/-- The cache accumulation loop of the infinite path (calc.py lines 66-73):
starting from `infinite = 0`, `i = 0`, each step sets
`last_infinite = infinite; infinite += c * x ** i; i += 1`.
Returns `(infinite, last_infinite, i)`. -/
def seriesFor (x : ℚ) : List ℚ → ℕ → ℚ → ℚ → ℚ × ℚ × ℕ
  | [], i, inf, last => (inf, last, i)
  | c :: cs, i, inf, _last => seriesFor x cs (i + 1) (inf + c * x ^ i) inf

/-- The `while` loop of calc.py lines 75-87 together with its
`except`/`else`: while `abs(infinite - last_infinite) > err`, pull the
next coefficient (raising `StopIteration` if exhausted), add `c * x ** i`,
increment `i`, and raise `TimeoutError` if `i > threshold`.  The raised
`TimeoutError` is caught at line 83, `infinite` is deleted, and the
function later crashes reading the never-assigned `result` at line 106,
so the caller observes `UnboundLocalError`.  The second component lists
the source positions pulled by the loop. -/
def sumLoop (f : ℕ → Option ℚ) (x : ℚ) (i : ℕ) (inf last : ℚ) : PyResult ℚ × List ℕ :=
  if |inf - last| ≤ err then (.ok inf, [])
  else
    match f i with
    | none => (.error .stopIteration, [])
    | some c =>
      if threshold < i + 1 then (.error .unboundLocalError, [i])
      else
        let p := sumLoop f x (i + 1) (inf + c * x ^ i) inf
        (p.1, i :: p.2)
  termination_by threshold + 1 - i
  decreasing_by omega

/-- The infinite path of `calc_power_series` (calc.py lines 42-57 and
65-87): pull the first ten coefficients into the cache, estimate the
radius, reject with `ValueError` when `r > 0` and `x` is not strictly
inside `(-r, r)`, otherwise accumulate the cached terms and run the
summation loop.  The second component lists all source positions pulled
during the evaluation. -/
def calcInfinitePathT (f : ℕ → Option ℚ) (x : ℚ) : PyResult ℚ × List ℕ :=
  let pc := pullRangeT f 0 radius_estimation
  match pc.1 with
  | .error e => (.error e, pc.2)
  | .ok cache =>
    match estimateRadius cache with
    | .error e => (.error e, pc.2)
    | .ok r =>
      if 0 < r ∧ ¬(-r < x ∧ x < r) then (.error .valueError, pc.2)
      else
        let s := seriesFor x cache 0 0 0
        let w := sumLoop f x s.2.2 s.1 s.2.1
        (w.1, pc.2 ++ w.2)

/-- A coefficient source: either a finite, randomly indexable sequence
(anything with `__len__`/`__length_hint__`, calc.py line 36) or a one-shot
lazy source, read at positions `0, 1, 2, ...`, where `none` models the
source signalling exhaustion (`StopIteration`). -/
inductive Coeffs where
  | finite (l : List ℚ)
  | infinite (f : ℕ → Option ℚ)

/-- `calc_power_series` (calc.py lines 13-106): dispatch on finiteness of
the coefficient source; an empty finite source hits `coeffs[0]` at
line 61 and raises `IndexError`. -/
def calc_power_series (coefficients : Coeffs) (x : ℚ) : PyResult ℚ :=
  match coefficients with
  | .finite [] => .error .indexError
  | .finite (c0 :: rest) => .ok (finiteEval c0 rest x)
  | .infinite f => (calcInfinitePathT f x).1

/-- A total (never exhausting) infinite coefficient source. -/
def streamOf (c : ℕ → ℚ) : ℕ → Option ℚ := fun n => some (c n)

/-- The constant-one series `1 + x + x^2 + ...` (calc.py lines 133-136). -/
def constOnes : ℕ → ℚ := fun _ => 1

/-- The alternating series with coefficients `(-1)^n`. -/
def altOnes : ℕ → ℚ := fun n => (-1) ^ n

/-- Modelled from the spec: the ordinary-least-squares intercept of a line
fitted to a list of `(x, y)` sample pairs, using the closed-form formulas
of spec section 4.1 (`b = Σ (x_i - mean_x)(y_i - mean_y) / Σ (x_i - mean_x)^2`,
`a = mean_y - b * mean_x`). -/
def olsIntercept (P : List (ℚ × ℚ)) : ℚ :=
  let xs := P.map Prod.fst
  let ys := P.map Prod.snd
  let mean_x : ℚ := xs.sum / (xs.length : ℚ)
  let mean_y : ℚ := ys.sum / (ys.length : ℚ)
  let b : ℚ :=
    (P.map (fun p => (p.1 - mean_x) * (p.2 - mean_y))).sum /
      (xs.map (fun u => (u - mean_x) ^ 2)).sum
  mean_y - b * mean_x

/-- Modelled from the spec: the Domb-Sykes sample pairs of spec section
4.2, `(X_n, Y_n) = (1/(n+1), c_n / c_{n-1})` for `n = 1 .. 9`, built from
the first ten coefficients of the source. -/
def dombSykesPairs (c : ℕ → ℚ) : List (ℚ × ℚ) :=
  (List.range' 1 9).map fun (n : ℕ) => (1 / ((n : ℚ) + 1), c n / c (n - 1))

/-- Modelled from the spec: the radius estimate `r = 1 / intercept` where
the intercept is that of the least-squares line through the Domb-Sykes
sample pairs. -/
def radius_spec (c : ℕ → ℚ) : ℚ := 1 / olsIntercept (dombSykesPairs c)

/-! ## Helper lemmas -/

set_option maxHeartbeats 1000000 in
/-- Unfolding equation for the summation loop (proved once, since the
definition is by well-founded recursion). -/
theorem sumLoop_eq (f : ℕ → Option ℚ) (x : ℚ) (i : ℕ) (inf last : ℚ) :
    sumLoop f x i inf last =
      if |inf - last| ≤ err then (.ok inf, [])
      else
        match f i with
        | none => (.error .stopIteration, [])
        | some c =>
          if threshold < i + 1 then (.error .unboundLocalError, [i])
          else ((sumLoop f x (i + 1) (inf + c * x ^ i) inf).1,
                i :: (sumLoop f x (i + 1) (inf + c * x ^ i) inf).2) := by
  conv_lhs => rw [sumLoop]

/-- Evaluating a fitted line at zero yields the intercept. -/
theorem Line.eval_zero (l : Line) : l.eval 0 = l.a := by
  simp [Line.eval]

/-- Pulling from a total stream always succeeds, yields the next `n`
coefficient values and consumes positions `s, s+1, ..., s+n-1`. -/
theorem pullRangeT_streamOf (c : ℕ → ℚ) :
    ∀ (n s : ℕ), pullRangeT (streamOf c) s n =
      (.ok ((List.range' s n).map c), List.range' s n) := by
  intro n
  induction n with
  | zero => intro s; rfl
  | succ n ih =>
    intro s
    rw [pullRangeT]
    simp only [streamOf]
    rw [ih (s + 1)]
    rw [List.range'_succ, List.map_cons]

/-- Pulling `n` values surfaces `StopIteration` whenever the source is
exhausted within the next `n` positions. -/
theorem pullRangeT_exhausted (f : ℕ → Option ℚ) :
    ∀ (n s : ℕ), (∃ k, k < n ∧ f (s + k) = none) →
      (pullRangeT f s n).1 = .error .stopIteration := by
  intro n
  induction n with
  | zero =>
    rintro s ⟨k, hk, _⟩
    omega
  | succ n ih =>
    rintro s ⟨k, hk, hnone⟩
    rw [pullRangeT]
    cases hfs : f s with
    | none => rfl
    | some c =>
      have hk1 : 1 ≤ k := by
        rcases Nat.eq_zero_or_pos k with h0 | h0
        · rw [h0, Nat.add_zero, hfs] at hnone
          cases hnone
        · exact h0
      have hrec : (pullRangeT f (s + 1) n).1 = .error .stopIteration := by
        apply ih
        refine ⟨k - 1, by omega, ?_⟩
        rw [show s + 1 + (k - 1) = s + k from by omega]
        exact hnone
      show (match (pullRangeT f (s + 1) n).1 with
        | .ok l => PyResult.ok (c :: l)
        | .error e => PyResult.error e) = _
      rw [hrec]

/-- The dispatch of `calc_power_series` on an infinite source. -/
theorem calc_power_series_infinite (f : ℕ → Option ℚ) (x : ℚ) :
    calc_power_series (.infinite f) x = (calcInfinitePathT f x).1 := rfl

/-- The finite accumulation loop computes the polynomial tail sum. -/
theorem finiteAux_eq {α : Type} [CommRing α] (x : α) :
    ∀ (l : List α) (i : ℕ) (acc : α),
      finiteAux x l i acc = acc + ∑ j ∈ Finset.range l.length, l.getD j 0 * x ^ (i + j) := by
  intro l
  induction l with
  | nil => intro i acc; simp [finiteAux]
  | cons c cs ih =>
    intro i acc
    rw [finiteAux, ih, List.length_cons, Finset.sum_range_succ']
    have h1 : ∀ j ∈ Finset.range cs.length,
        (c :: cs).getD (j + 1) 0 * x ^ (i + (j + 1)) = cs.getD j 0 * x ^ (i + 1 + j) := by
      intro j _
      rw [List.getD_cons_succ]
      have h2 : i + (j + 1) = i + 1 + j := by omega
      rw [h2]
    rw [Finset.sum_congr rfl h1, List.getD_cons_zero]
    ring

/-- The cache accumulation loop leaves the term index at `i + length`. -/
theorem seriesFor_idx (x : ℚ) :
    ∀ (l : List ℚ) (i : ℕ) (a b : ℚ), (seriesFor x l i a b).2.2 = i + l.length := by
  intro l
  induction l with
  | nil => intro i a b; simp [seriesFor]
  | cons c cs ih =>
    intro i a b
    rw [seriesFor, ih]
    simp only [List.length_cons]
    omega

/-- Fuel-indexed form: the summation loop never raises `ValueError` (the
out-of-radius rejection happens before the loop, never inside it). -/
theorem sumLoop_ne_valueError_aux (f : ℕ → Option ℚ) (x : ℚ) :
    ∀ (n i : ℕ) (inf last : ℚ), threshold + 1 - i ≤ n →
      (sumLoop f x i inf last).1 ≠ .error .valueError := by
  intro n
  induction n with
  | zero =>
    intro i inf last hn
    rw [sumLoop_eq]
    split
    · intro h; cases h
    · split
      · intro h; cases h
      · split
        · intro h; cases h
        · omega
  | succ n ih =>
    intro i inf last hn
    rw [sumLoop_eq]
    split
    · intro h; cases h
    · split
      · intro h; cases h
      · split
        · intro h; cases h
        · exact ih (i + 1) _ inf (by omega)

/-- The summation loop never raises `ValueError`. -/
theorem sumLoop_ne_valueError (f : ℕ → Option ℚ) (x : ℚ) (i : ℕ) (inf last : ℚ) :
    (sumLoop f x i inf last).1 ≠ .error .valueError :=
  sumLoop_ne_valueError_aux f x (threshold + 1 - i) i inf last le_rfl

/-- Fuel-indexed form: the loop pulls a contiguous block of positions
starting at the current index. -/
theorem sumLoop_trace_aux (f : ℕ → Option ℚ) (x : ℚ) :
    ∀ (n i : ℕ) (inf last : ℚ), threshold + 1 - i ≤ n →
      ∃ k, (sumLoop f x i inf last).2 = List.range' i k := by
  intro n
  induction n with
  | zero =>
    intro i inf last hn
    rw [sumLoop_eq]
    split
    · exact ⟨0, rfl⟩
    · split
      · exact ⟨0, rfl⟩
      · split
        · exact ⟨1, rfl⟩
        · omega
  | succ n ih =>
    intro i inf last hn
    rw [sumLoop_eq]
    split
    · exact ⟨0, rfl⟩
    · split
      · exact ⟨0, rfl⟩
      · split
        · exact ⟨1, rfl⟩
        · obtain ⟨k, hk⟩ := ih (i + 1) _ inf (by omega)
          refine ⟨k + 1, ?_⟩
          show i :: (sumLoop f x (i + 1) _ inf).2 = _
          rw [hk, List.range'_succ]

/-- The summation loop pulls a contiguous block of positions starting at
the current index. -/
theorem sumLoop_trace (f : ℕ → Option ℚ) (x : ℚ) (i : ℕ) (inf last : ℚ) :
    ∃ k, (sumLoop f x i inf last).2 = List.range' i k :=
  sumLoop_trace_aux f x (threshold + 1 - i) i inf last le_rfl

/-- Fuel-indexed form of the pull-count bound of the summation loop. -/
theorem sumLoop_len_aux (f : ℕ → Option ℚ) (x : ℚ) :
    ∀ (n i : ℕ) (inf last : ℚ), threshold + 1 - i ≤ n → i ≤ threshold →
      (sumLoop f x i inf last).2.length ≤ threshold + 1 - i := by
  intro n
  induction n with
  | zero => intro i inf last hn hi; omega
  | succ n ih =>
    intro i inf last hn hi
    rw [sumLoop_eq]
    split
    · simp
    · split
      · simp
      · split
        · simp only [List.length_cons, List.length_nil]; omega
        · rename_i c hc hcap
          show (i :: (sumLoop f x (i + 1) (inf + c * x ^ i) inf).2).length ≤ _
          rw [List.length_cons]
          have hrec := ih (i + 1) (inf + c * x ^ i) inf (by omega) (by omega)
          omega

/-- On the alternating-sign constant-magnitude stream at `x = 1`, every
iteration changes the partial sum by exactly `1`, so the loop runs into
the cap: entered at index `i` with `i + k = threshold + 1`, it pulls
positions `i .. threshold` and ends in the deleted-result state. -/
theorem altOnes_loop :
    ∀ (k i : ℕ) (inf last : ℚ), i + k = threshold + 1 → 0 < k → |inf - last| = 1 →
      sumLoop (streamOf altOnes) 1 i inf last =
        (.error .unboundLocalError, List.range' i k) := by
  intro k
  induction k with
  | zero => intro i inf last hik hk habs; omega
  | succ k ih =>
    intro i inf last hik hk habs
    rw [sumLoop_eq]
    rw [if_neg (by rw [habs]; norm_num [err])]
    simp only [streamOf]
    by_cases hcap : threshold < i + 1
    · rw [if_pos hcap]
      have hk0 : k = 0 := by omega
      rw [hk0]
      rfl
    · rw [if_neg hcap]
      have habs2 : |inf + altOnes i * 1 ^ i - inf| = 1 := by
        simp [altOnes, abs_pow]
      rw [ih (i + 1) _ inf (by omega) (by omega) habs2]
      rw [List.range'_succ]

/-- On matched-length inputs with a nonzero slope denominator, `fit`
succeeds and its intercept is the ordinary-least-squares intercept of the
zipped sample pairs. -/
theorem fit_eval_zero_eq_ols (X Y : List ℚ) (h1 : X.length = Y.length) (h2 : X.length ≠ 0)
    (hden : (X.map (fun u => (u - X.sum / (X.length : ℚ)) ^ 2)).sum ≠ 0) :
    fit X Y = .ok ⟨olsIntercept (X.zip Y),
      ((X.zip Y).map (fun p =>
          (p.1 - X.sum / (X.length : ℚ)) * (p.2 - Y.sum / (Y.length : ℚ)))).sum /
        (X.map (fun u => (u - X.sum / (X.length : ℚ)) ^ 2)).sum⟩ := by
  have hxs : (X.zip Y).map Prod.fst = X := List.map_fst_zip X Y (by omega)
  have hys : (X.zip Y).map Prod.snd = Y := List.map_snd_zip X Y (by omega)
  simp only [fit, olsIntercept, hxs, hys]
  rw [if_neg h2, if_neg (by omega : ¬Y.length = 0), if_neg hden]

/-! ## Claim theorems -/

set_option maxRecDepth 4000 in
/-- C1: for every non-empty finite coefficient sequence and every real
evaluation point, the finite path computes the exact polynomial value
`Σ c_i x^i`; in particular `evaluate_series([1,2,3,4], 5) = 586`,
`evaluate_series((1,2,3,4), -1) = -2`, and
`evaluate_series([1,2,3,4], 0.1) = 1.234`. -/
theorem finite_path_polynomial_value :
    (∀ (c0 : ℝ) (rest : List ℝ) (x : ℝ),
        finiteEval c0 rest x =
          ∑ i ∈ Finset.range (rest.length + 1), (c0 :: rest).getD i 0 * x ^ i) ∧
    calc_power_series (.finite [1, 2, 3, 4]) 5 = .ok 586 ∧
    calc_power_series (.finite [1, 2, 3, 4]) (-1) = .ok (-2) ∧
    calc_power_series (.finite [1, 2, 3, 4]) (1 / 10) = .ok (1234 / 1000) := by
  refine ⟨?_, ?_, ?_, ?_⟩
  · intro c0 rest x
    rw [finiteEval, finiteAux_eq, Finset.sum_range_succ']
    have h1 : ∀ j ∈ Finset.range rest.length,
        (c0 :: rest).getD (j + 1) 0 * x ^ (j + 1) = rest.getD j 0 * x ^ (1 + j) := by
      intro j _
      rw [List.getD_cons_succ]
      have h2 : j + 1 = 1 + j := by omega
      rw [h2]
    rw [Finset.sum_congr rfl h1, List.getD_cons_zero]
    ring
  · exact of_decide_eq_true (by with_unfolding_all rfl)
  · exact of_decide_eq_true (by with_unfolding_all rfl)
  · exact of_decide_eq_true (by with_unfolding_all rfl)

/-- C9 counterexample: the empty list is a finite numeric coefficient
sequence, yet the finite path fails on it (Python's `coeffs[0]` raises
`IndexError`), which is not a `TypeError`-equivalent. -/
theorem finite_empty_index_error :
    calc_power_series (.finite []) 0 = .error .indexError := rfl

/-- C9 (amended): on every NON-EMPTY finite numeric coefficient sequence
the finite path is deterministic, terminates, and returns a value without
raising any error. -/
theorem finite_nonempty_no_error :
    ∀ (l : List ℚ) (x : ℚ), l ≠ [] → ∃ v, calc_power_series (.finite l) x = .ok v := by
  intro l x h
  match l with
  | [] => exact absurd rfl h
  | c0 :: rest => exact ⟨finiteEval c0 rest x, rfl⟩

/-- C9 witness. -/
theorem finite_nonempty_no_error_witness :
    ∃ v, calc_power_series (.finite [1]) 0 = .ok v :=
  finite_nonempty_no_error [1] 0 (by simp)

/-- C5: on sequences of equal positive length with a nonzero slope
denominator, `fit_line` returns the line `f(x) = a + b*x` given by the
closed-form ordinary-least-squares formulas; in particular
`fit_line([1,2,3,4],[5,6,7,8])` evaluated at `9` gives `13` and
`fit_line([1,3,2,4],[5,6,7,8])` evaluated at `9` gives `11.7`. -/
theorem fit_ols_closed_form :
    (∀ (X Y : List ℚ), X.length = Y.length → 0 < X.length →
        (X.map (fun u => (u - X.sum / (X.length : ℚ)) ^ 2)).sum ≠ 0 →
        fit X Y = .ok
          ⟨Y.sum / (Y.length : ℚ) -
              (((X.zip Y).map (fun p =>
                  (p.1 - X.sum / (X.length : ℚ)) * (p.2 - Y.sum / (Y.length : ℚ)))).sum /
                  (X.map (fun u => (u - X.sum / (X.length : ℚ)) ^ 2)).sum) *
                (X.sum / (X.length : ℚ)),
            ((X.zip Y).map (fun p =>
                (p.1 - X.sum / (X.length : ℚ)) * (p.2 - Y.sum / (Y.length : ℚ)))).sum /
              (X.map (fun u => (u - X.sum / (X.length : ℚ)) ^ 2)).sum⟩) ∧
    (∃ l, fit [1, 2, 3, 4] [5, 6, 7, 8] = .ok l ∧ l.eval 9 = 13) ∧
    (∃ l, fit [1, 3, 2, 4] [5, 6, 7, 8] = .ok l ∧ l.eval 9 = 117 / 10) := by
  refine ⟨?_, ?_, ?_⟩
  · intro X Y h1 h2 hden
    simp only [fit]
    rw [if_neg (by omega : ¬X.length = 0), if_neg (by omega : ¬Y.length = 0), if_neg hden]
  · exact ⟨⟨4, 1⟩, of_decide_eq_true (by with_unfolding_all rfl),
      of_decide_eq_true (by with_unfolding_all rfl)⟩
  · exact ⟨⟨9 / 2, 4 / 5⟩, of_decide_eq_true (by with_unfolding_all rfl),
      of_decide_eq_true (by with_unfolding_all rfl)⟩

/-- C5 witness. -/
theorem fit_ols_closed_form_witness : fit [1, 2] [1, 2] = .ok ⟨0, 1⟩ := by
  have h := fit_ols_closed_form.1 [1, 2] [1, 2] rfl (by norm_num)
    (of_decide_eq_true (by with_unfolding_all rfl))
  rw [h]
  exact of_decide_eq_true (by with_unfolding_all rfl)

/-- C6: the degenerate inputs named by the claim (empty input, or all
`x_i` identical) make `fit` fail, but with an uncaught raw
`ZeroDivisionError`, not with a converted `InvalidInputError` (no such
conversion exists in the code). -/
theorem fit_degenerate_raw_zero_division :
    fit [1, 1] [1, 2] = .error .zeroDivisionError ∧
    fit ([] : List ℚ) ([] : List ℚ) = .error .zeroDivisionError := by
  refine ⟨of_decide_eq_true (by with_unfolding_all rfl), rfl⟩

/-- C10: when a length-less source yields fewer than ten values, the
unconditional pull of the first ten samples surfaces the source's
exhaustion signal (`StopIteration`) to the caller, which is none of the
documented error outcomes. -/
theorem early_exhaustion_stop_iteration :
    ∀ (f : ℕ → Option ℚ) (x : ℚ), (∃ k, k < radius_estimation ∧ f k = none) →
      calc_power_series (.infinite f) x = .error .stopIteration ∧
      PyError.stopIteration ≠ PyError.valueError ∧
      PyError.stopIteration ≠ PyError.zeroDivisionError ∧
      PyError.stopIteration ≠ PyError.unboundLocalError := by
  intro f x hex
  refine ⟨?_, by decide, by decide, by decide⟩
  obtain ⟨k, hk, hnone⟩ := hex
  have h1 : (pullRangeT f 0 radius_estimation).1 = .error .stopIteration := by
    apply pullRangeT_exhausted
    exact ⟨k, hk, by rw [Nat.zero_add]; exact hnone⟩
  simp only [calc_power_series, calcInfinitePathT]
  rw [h1]

/-- C10 witness. -/
theorem early_exhaustion_stop_iteration_witness :
    calc_power_series (.infinite fun k => if k < 5 then some 1 else none) 0 =
      .error .stopIteration :=
  (early_exhaustion_stop_iteration _ 0 ⟨5, by decide, rfl⟩).1

/-- C2: on the infinite path, whenever the divisions involved are
well-defined (no zero among the first nine coefficients and a nonzero
fitted intercept), the radius estimate computed from the ten pulled
values is exactly `1 / intercept` of the least-squares line through the
Domb-Sykes sample pairs `(1/(n+1), c_n / c_{n-1})`, `n = 1 .. 9`. -/
theorem radius_eq_inverse_ols_intercept :
    ∀ (c : ℕ → ℚ), (∀ n, n < 9 → c n ≠ 0) → olsIntercept (dombSykesPairs c) ≠ 0 →
      estimateRadius ((List.range radius_estimation).map c) = .ok (radius_spec c) := by
  intro c h0 hI
  have hcache : (List.range radius_estimation).map c =
      [c 0, c 1, c 2, c 3, c 4, c 5, c 6, c 7, c 8, c 9] := rfl
  rw [hcache]
  have hY : buildY [c 0, c 1, c 2, c 3, c 4, c 5, c 6, c 7, c 8, c 9] =
      .ok [c 1 / c 0, c 2 / c 1, c 3 / c 2, c 4 / c 3, c 5 / c 4,
           c 6 / c 5, c 7 / c 6, c 8 / c 7, c 9 / c 8] := by
    simp [buildY, h0 0 (by omega), h0 1 (by omega), h0 2 (by omega), h0 3 (by omega),
      h0 4 (by omega), h0 5 (by omega), h0 6 (by omega), h0 7 (by omega), h0 8 (by omega)]
  have hlen : ([c 0, c 1, c 2, c 3, c 4, c 5, c 6, c 7, c 8, c 9] : List ℚ).length = 10 := rfl
  unfold estimateRadius
  rw [hY]
  rw [hlen]
  have hfit := fit_eval_zero_eq_ols (buildX 10)
    [c 1 / c 0, c 2 / c 1, c 3 / c 2, c 4 / c 3, c 5 / c 4,
     c 6 / c 5, c 7 / c 6, c 8 / c 7, c 9 / c 8]
    rfl (by decide) (of_decide_eq_true (by with_unfolding_all rfl))
  dsimp only
  rw [hfit]
  have hzip : dombSykesPairs c = (buildX 10).zip
      [c 1 / c 0, c 2 / c 1, c 3 / c 2, c 4 / c 3, c 5 / c 4,
       c 6 / c 5, c 7 / c 6, c 8 / c 7, c 9 / c 8] := rfl
  dsimp only
  simp only [Line.eval_zero]
  rw [← hzip]
  rw [if_neg hI]
  rfl

/-- C2 witness. -/
theorem radius_eq_inverse_ols_intercept_witness :
    estimateRadius ((List.range radius_estimation).map constOnes) = .ok (radius_spec constOnes) :=
  radius_eq_inverse_ols_intercept constOnes (fun _ _ => one_ne_zero)
    (of_decide_eq_true (by with_unfolding_all rfl))

/-- C3: on the infinite path, after the radius estimate `r` is computed:
if `r > 0` and `x` is not strictly inside `(-r, r)` the evaluation fails
with the out-of-radius rejection (`ValueError`) having pulled only the
ten estimation samples; if `r ≤ 0` the evaluation proceeds to the
summation, which never raises that rejection; in particular the
constant-one series evaluated at `1.1` fails with the rejection. -/
theorem out_of_radius_rejection :
    (∀ (c : ℕ → ℚ) (x r : ℚ),
        estimateRadius ((List.range radius_estimation).map c) = .ok r → 0 < r →
        ¬(-r < x ∧ x < r) →
        calcInfinitePathT (streamOf c) x = (.error .valueError, List.range radius_estimation)) ∧
    (∀ (c : ℕ → ℚ) (x r : ℚ),
        estimateRadius ((List.range radius_estimation).map c) = .ok r → r ≤ 0 →
        (calcInfinitePathT (streamOf c) x).1 ≠ .error .valueError) ∧
    calc_power_series (.infinite (streamOf constOnes)) (11 / 10) = .error .valueError := by
  refine ⟨?_, ?_, of_decide_eq_true (by with_unfolding_all rfl)⟩
  · intro c x r hr hpos hx
    unfold calcInfinitePathT
    rw [pullRangeT_streamOf]
    dsimp only
    rw [List.range_eq_range'] at hr
    rw [hr]
    dsimp only
    rw [if_pos ⟨hpos, hx⟩]
    rw [List.range_eq_range']
  · intro c x r hr hneg
    unfold calcInfinitePathT
    rw [pullRangeT_streamOf]
    dsimp only
    rw [List.range_eq_range'] at hr
    rw [hr]
    dsimp only
    rw [if_neg (fun h => absurd h.1 (not_lt.mpr hneg))]
    dsimp only
    exact sumLoop_ne_valueError _ _ _ _ _

/-- C3 witness. -/
theorem out_of_radius_rejection_witness :
    calcInfinitePathT (streamOf constOnes) 2 = (.error .valueError, List.range radius_estimation) :=
  out_of_radius_rejection.1 constOnes 2 1 (of_decide_eq_true (by with_unfolding_all rfl))
    (by norm_num) (by norm_num)

/-- C4 (code evaluated at a failing input): hitting the iteration cap on
the infinite path does not surface the module's `TimeoutError`; the
handler deletes the accumulator and the caller observes
`UnboundLocalError` from the final `return result`. -/
theorem timeout_unbound_local_at_cap :
    calc_power_series (.infinite (streamOf altOnes)) 1 = .error .unboundLocalError := by
  rw [calc_power_series_infinite]
  unfold calcInfinitePathT
  rw [pullRangeT_streamOf]
  dsimp only
  have hradius : estimateRadius ((List.range' 0 radius_estimation).map altOnes) = .ok (-1) :=
    of_decide_eq_true (by with_unfolding_all rfl)
  rw [hradius]
  dsimp only
  rw [if_neg (by norm_num)]
  have h1 : (seriesFor 1 ((List.range' 0 radius_estimation).map altOnes) 0 0 0).2.2 = 10 :=
    of_decide_eq_true (by with_unfolding_all rfl)
  have h2 : (seriesFor 1 ((List.range' 0 radius_estimation).map altOnes) 0 0 0).1 = 0 :=
    of_decide_eq_true (by with_unfolding_all rfl)
  have h3 : (seriesFor 1 ((List.range' 0 radius_estimation).map altOnes) 0 0 0).2.1 = 1 :=
    of_decide_eq_true (by with_unfolding_all rfl)
  rw [h1, h2, h3]
  rw [altOnes_loop 991 10 0 1 (by norm_num [threshold]) (by norm_num)
    (by rw [zero_sub, abs_neg, abs_one])]

set_option maxRecDepth 100000 in
/-- C7 counterexample: on the alternating stream at `x = 1` the loop is
stopped by the cap, but the number of additional terms pulled beyond the
ten cached ones is `991`, not `1000` (the cap compares the total term
index, cached terms included, against `1000`); moreover the loop already
stops when the difference equals the threshold exactly, not only when it
drops strictly below it. -/
theorem summation_cap_991_counterexample :
    calcInfinitePathT (streamOf altOnes) 1 = (.error .unboundLocalError, List.range 1001) ∧
    (List.range 1001).length = radius_estimation + 991 ∧
    (991 : ℕ) ≠ 1000 ∧
    sumLoop (streamOf constOnes) 0 radius_estimation err 0 = (.ok err, []) := by
  refine ⟨?_, by decide, by decide, ?_⟩
  · unfold calcInfinitePathT
    rw [pullRangeT_streamOf]
    dsimp only
    have hradius : estimateRadius ((List.range' 0 radius_estimation).map altOnes) = .ok (-1) :=
      of_decide_eq_true (by with_unfolding_all rfl)
    rw [hradius]
    dsimp only
    rw [if_neg (by norm_num)]
    have h1 : (seriesFor 1 ((List.range' 0 radius_estimation).map altOnes) 0 0 0).2.2 = 10 :=
      of_decide_eq_true (by with_unfolding_all rfl)
    have h2 : (seriesFor 1 ((List.range' 0 radius_estimation).map altOnes) 0 0 0).1 = 0 :=
      of_decide_eq_true (by with_unfolding_all rfl)
    have h3 : (seriesFor 1 ((List.range' 0 radius_estimation).map altOnes) 0 0 0).2.1 = 1 :=
      of_decide_eq_true (by with_unfolding_all rfl)
    rw [h1, h2, h3]
    rw [altOnes_loop 991 10 0 1 (by norm_num [threshold]) (by norm_num)
      (by rw [zero_sub, abs_neg, abs_one])]
    have happ : List.range' 0 radius_estimation ++ List.range' 10 991 = List.range 1001 :=
      of_decide_eq_true (by with_unfolding_all rfl)
    rw [happ]
  · rw [sumLoop_eq]
    rw [if_pos (by rw [sub_zero]; exact le_of_eq (abs_of_pos (by norm_num [err])))]

/-- C7 (amended): the loop terminates as soon as the absolute difference
of consecutive partial sums is at or below the threshold `1e-7` (the
convergence check runs before any pull or cap check); otherwise it pulls
one coefficient and adds `c_i * x^i`; the cap stops it once the total
term index (cached terms included) exceeds `1000`, i.e. after at most
`991` additional terms, so the loop always terminates within a bounded
number of steps. -/
theorem summation_policy :
    (∀ (f : ℕ → Option ℚ) (x : ℚ) (i : ℕ) (inf last : ℚ), |inf - last| ≤ err →
        sumLoop f x i inf last = (.ok inf, [])) ∧
    (∀ (f : ℕ → Option ℚ) (x : ℚ) (i : ℕ) (inf last c : ℚ), err < |inf - last| →
        f i = some c → threshold < i + 1 →
        sumLoop f x i inf last = (.error .unboundLocalError, [i])) ∧
    (∀ (f : ℕ → Option ℚ) (x : ℚ) (i : ℕ) (inf last c : ℚ), err < |inf - last| →
        f i = some c → i + 1 ≤ threshold →
        sumLoop f x i inf last =
          ((sumLoop f x (i + 1) (inf + c * x ^ i) inf).1,
            i :: (sumLoop f x (i + 1) (inf + c * x ^ i) inf).2)) ∧
    (∀ (f : ℕ → Option ℚ) (x : ℚ) (i : ℕ) (inf last : ℚ), i ≤ threshold →
        (sumLoop f x i inf last).2.length ≤ threshold + 1 - i) := by
  refine ⟨?_, ?_, ?_, ?_⟩
  · intro f x i inf last h
    rw [sumLoop_eq, if_pos h]
  · intro f x i inf last c h1 hf hcap
    rw [sumLoop_eq, if_neg (not_le.mpr h1), hf]
    dsimp only
    rw [if_pos hcap]
  · intro f x i inf last c h1 hf hcap
    rw [sumLoop_eq, if_neg (not_le.mpr h1), hf]
    dsimp only
    rw [if_neg (not_lt.mpr hcap)]
  · intro f x i inf last hi
    exact sumLoop_len_aux f x (threshold + 1 - i) i inf last le_rfl hi

/-- C7 witness. -/
theorem summation_policy_witness :
    sumLoop (streamOf constOnes) 0 0 0 0 = (.ok 0, []) ∧
    sumLoop (streamOf constOnes) 1 threshold 2 0 = (.error .unboundLocalError, [threshold]) ∧
    (sumLoop (streamOf constOnes) 1 5 2 0).2.length ≤ threshold + 1 - 5 :=
  ⟨summation_policy.1 _ 0 0 0 0 (by rw [sub_self, abs_zero]; norm_num [err]),
    summation_policy.2.1 _ 1 threshold 2 0 1
      (by rw [sub_zero, abs_of_pos (by norm_num : (0 : ℚ) < 2)]; norm_num [err]) rfl (by omega),
    summation_policy.2.2.2 _ 1 5 2 0 (by norm_num [threshold])⟩

/-- C8: the infinite path pulls exactly the ten estimation samples first
(positions `0..9`, retained as the cache), initialises the running sum
from the cache as `Σ c_i x^i` for `i = 0..9`, and over the whole
evaluation pulls a contiguous initial block of positions, each exactly
once. -/
theorem estimation_cache_and_single_pull :
    (∀ (c : ℕ → ℚ), pullRangeT (streamOf c) 0 radius_estimation =
        (.ok ((List.range radius_estimation).map c), List.range radius_estimation)) ∧
    (∀ (c : ℕ → ℚ) (x : ℚ),
        (seriesFor x ((List.range radius_estimation).map c) 0 0 0).1 =
          ∑ i ∈ Finset.range radius_estimation, c i * x ^ i) ∧
    (∀ (c : ℕ → ℚ) (x : ℚ), ∃ m,
        (calcInfinitePathT (streamOf c) x).2 = List.range m ∧
        ((calcInfinitePathT (streamOf c) x).2).Nodup) := by
  refine ⟨?_, ?_, ?_⟩
  · intro c
    rw [pullRangeT_streamOf, List.range_eq_range']
  · intro c x
    have hcache : (List.range radius_estimation).map c =
        [c 0, c 1, c 2, c 3, c 4, c 5, c 6, c 7, c 8, c 9] := rfl
    rw [hcache]
    simp only [seriesFor, radius_estimation]
    norm_num [Finset.sum_range_succ]
  · intro c x
    unfold calcInfinitePathT
    rw [pullRangeT_streamOf]
    dsimp only
    cases hE : estimateRadius ((List.range' 0 radius_estimation).map c) with
    | error e =>
      refine ⟨radius_estimation, by rw [List.range_eq_range'], ?_⟩
      rw [show List.range' 0 radius_estimation = List.range radius_estimation from
        (List.range_eq_range' radius_estimation).symm]
      exact List.nodup_range radius_estimation
    | ok r =>
      dsimp only
      by_cases hrej : 0 < r ∧ ¬(-r < x ∧ x < r)
      · rw [if_pos hrej]
        refine ⟨radius_estimation, by rw [List.range_eq_range'], ?_⟩
        rw [show List.range' 0 radius_estimation = List.range radius_estimation from
          (List.range_eq_range' radius_estimation).symm]
        exact List.nodup_range radius_estimation
      · rw [if_neg hrej]
        dsimp only
        have hidx : (seriesFor x ((List.range' 0 radius_estimation).map c) 0 0 0).2.2 =
            radius_estimation := by
          rw [seriesFor_idx]
          simp [List.length_range']
        rw [hidx]
        obtain ⟨k, hk⟩ := sumLoop_trace (streamOf c) x radius_estimation
          (seriesFor x ((List.range' 0 radius_estimation).map c) 0 0 0).1
          (seriesFor x ((List.range' 0 radius_estimation).map c) 0 0 0).2.1
        have htr : List.range' 0 radius_estimation ++
            (sumLoop (streamOf c) x radius_estimation
              (seriesFor x ((List.range' 0 radius_estimation).map c) 0 0 0).1
              (seriesFor x ((List.range' 0 radius_estimation).map c) 0 0 0).2.1).2 =
            List.range (k + radius_estimation) := by
          rw [hk]
          have happ := List.range'_append_1 0 radius_estimation k
          rw [Nat.zero_add] at happ
          rw [happ, List.range_eq_range']
        refine ⟨k + radius_estimation, htr, ?_⟩
        rw [htr]
        exact List.nodup_range (k + radius_estimation)

end CalcPy
